import Mathlib

/-
Verification of the British/American spelling translator (src/mod.ts).

Host strings are modeled as lists of characters (Str). The host string
primitives toLowerCase / toUpperCase are modeled at ASCII granularity by
Char.toLower / Char.toUpper applied characterwise, matching the behavior of
the host primitives on the basic latin range; the explicit ASCII range test
in the mixed-casing loop of the source is modeled verbatim.

The two private indices (Record objects keyed by strings) are modeled as
association lists with the usual JavaScript object semantics: assignment to
an existing key updates its value in place, assignment to a fresh key
appends, delete removes the key, lookup of an absent key yields none. The
source stores a tuple [counterpart, regex] as each value; the regex
component is never read anywhere in the module, so the model stores only the
counterpart string (the regex CONSTRUCTION, however, can throw - see the
theorem add_updates_indices and the analysis of claim C4).
-/

namespace EnUkUsa

/-- Host strings, modeled as lists of characters. -/
abbrev Str := List Char

/-- Converts a Lean string literal to the model string type. -/
def str (x : String) : Str := x.data

/-- Model of the host toLowerCase primitive, characterwise on the modeled
alphabet. -/
def jsToLower (s : Str) : Str := s.map Char.toLower

/-- Model of the host toUpperCase primitive, characterwise on the modeled
alphabet. -/
def jsToUpper (s : Str) : Str := s.map Char.toUpper

/-- The mixed-casing loop of the function _matchCase, src/mod.ts lines 50-65:
walk input and toMatch in lockstep up to the shorter length; where the two
characters agree ignoring case, recase the input character to uppercase when
the reference character is in the ASCII range A-Z and to lowercase otherwise;
where they disagree, keep the input character; the surplus of input beyond the
length of toMatch is appended verbatim. -/
def mixedLoop : Str → Str → Str
  | [], _ => []
  | c :: cs, [] => c :: cs
  | c :: cs, p :: ps =>
      (if Char.toLower c = Char.toLower p then
        (if 'A' ≤ p ∧ p ≤ 'Z' then Char.toUpper c else Char.toLower c)
      else c) :: mixedLoop cs ps

/-- Embedding of the function _matchCase, src/mod.ts lines 32-66. Empty input
or empty pattern return the input unchanged (line 33). The Titlecase test
(lines 35-36) is: the first pattern character equals its own uppercase form
and the remaining pattern equals its own lowercase form; it returns the input
with its first character uppercased and the rest lowercased (lines 37-41).
Then the all-uppercase test (lines 43-44), the all-lowercase test (lines
46-47), and finally the mixed-casing loop. -/
def _matchCase (input toMatch : Str) : Str :=
  match input, toMatch with
  | [], _ => []
  | c :: cs, [] => c :: cs
  | c :: cs, p :: ps =>
      if p = Char.toUpper p ∧ ps = jsToLower ps then
        Char.toUpper c :: jsToLower cs
      else if p :: ps = jsToUpper (p :: ps) then
        jsToUpper (c :: cs)
      else if p :: ps = jsToLower (p :: ps) then
        jsToLower (c :: cs)
      else
        mixedLoop (c :: cs) (p :: ps)

/-- One index of the dictionary: an association list from a spelling to its
counterpart spelling, with JavaScript object semantics. -/
abbrev Index := List (Str × Str)

/-- Lookup of a key in an index; none models an absent key (undefined). -/
def recGet : Index → Str → Option Str
  | [], _ => none
  | (k', v) :: rest, k => if k' = k then some v else recGet rest k

/-- Assignment of a key in an index: an existing key keeps its position and
gets the new value; a fresh key is appended. -/
def recSet : Index → Str → Str → Index
  | [], k, v => [(k, v)]
  | (k', v') :: rest, k, v =>
      if k' = k then (k, v) :: rest else (k', v') :: recSet rest k v

/-- Deletion of a key from an index. -/
def recDelete : Index → Str → Index
  | [], _ => []
  | (k', v) :: rest, k =>
      if k' = k then recDelete rest k else (k', v) :: recDelete rest k

/-- The Dictionary state, src/mod.ts lines 97-99: the two private indices. -/
structure Dictionary where
  enGB : Index
  enUS : Index
deriving DecidableEq

/-- Embedding of Dictionary.add, src/mod.ts lines 120-124: unconditionally
insert gb into the GB index with value us, and us into the US index with value
gb, exactly as given (the returned instance is the updated dictionary). The
source additionally constructs two RegExp objects from gb and us that are
stored in the value tuples and never read again. -/
def add (d : Dictionary) (gb us : Str) : Dictionary :=
  { enGB := recSet d.enGB gb us, enUS := recSet d.enUS us gb }

/-- Model of the nullish-coalescing lookup chain a ?? b. -/
def jsNullishOr (a b : Option Str) : Option Str :=
  match a with
  | some x => some x
  | none => b

/-- Embedding of the private method translateGBToUS, src/mod.ts lines 190-195:
exact key, else lowercased key, in the GB index; absent means the word passes
through unchanged; on a hit, the counterpart is returned as stored when
matchCase is false and recased against the original input word otherwise. -/
def translateGBToUS (d : Dictionary) (word : Str) (matchCase : Bool) : Str :=
  match jsNullishOr (recGet d.enGB word) (recGet d.enGB (jsToLower word)) with
  | none => word
  | some us => if matchCase then _matchCase us word else us

/-- Embedding of the private method translateUSToGB, src/mod.ts lines
215-220. -/
def translateUSToGB (d : Dictionary) (word : Str) (matchCase : Bool) : Str :=
  match jsNullishOr (recGet d.enUS word) (recGet d.enUS (jsToLower word)) with
  | none => word
  | some gb => if matchCase then _matchCase gb word else gb

/-- Embedding of the single-word overload of Dictionary.gbToUs, src/mod.ts
lines 206-213. -/
def gbToUs (d : Dictionary) (word : Str) (matchCase : Bool) : Str :=
  translateGBToUS d word matchCase

/-- Embedding of the array overload of Dictionary.gbToUs: elementwise
translation. -/
def gbToUsList (d : Dictionary) (words : List Str) (matchCase : Bool) : List Str :=
  words.map fun w => translateGBToUS d w matchCase

/-- Embedding of the single-word overload of Dictionary.usToGb, src/mod.ts
lines 231-238. -/
def usToGb (d : Dictionary) (word : Str) (matchCase : Bool) : Str :=
  translateUSToGB d word matchCase

/-- Embedding of the array overload of Dictionary.usToGb: elementwise
translation. -/
def usToGbList (d : Dictionary) (words : List Str) (matchCase : Bool) : List Str :=
  words.map fun w => translateUSToGB d w matchCase

/-- Embedding of Dictionary.entries, src/mod.ts lines 184-188: one (gb, us)
pair per GB index entry, in index order (the value tuple is destructured to
its counterpart component, which is exactly the stored value of the model). -/
def entries (d : Dictionary) : List (Str × Str) := d.enGB

/-- The key-resolution cascade of Dictionary.remove, src/mod.ts lines
139-166, producing the optional gbKey and usKey: exact GB key, else exact US
key, else the lowercased word against the GB index, else the lowercased word
against the US index. -/
def removeKeys (d : Dictionary) (word cleanedWord : Str) : Option Str × Option Str :=
  match recGet d.enGB word with
  | some us => (some word, some us)
  | none =>
    match recGet d.enUS word with
    | some gb => (some gb, some word)
    | none =>
      match recGet d.enGB cleanedWord with
      | some us => (some cleanedWord, some us)
      | none =>
        match recGet d.enUS cleanedWord with
        | some gb => (some gb, some cleanedWord)
        | none => (none, none)

/-- The guarded deletions of Dictionary.remove, src/mod.ts lines 168-169: the
source tests the optional key for truthiness, which fails both for an absent
key and for the empty string, so a deletion under the empty-string key is
skipped. -/
def delTruthy (idx : Index) (k : Option Str) : Index :=
  match k with
  | none => idx
  | some key => if key = [] then idx else recDelete idx key

/-- Embedding of Dictionary.remove, src/mod.ts lines 135-171. The parameter
lowerFn models word.toLocaleLowerCase(locales) for the supplied locale. When
the lowercased word is empty the method returns immediately (line 137);
otherwise the resolution cascade runs and the two guarded deletions are
applied. -/
def remove (lowerFn : Str → Str) (d : Dictionary) (word : Str) : Dictionary :=
  if (lowerFn word).length = 0 then d
  else
    { enGB := delTruthy d.enGB (removeKeys d word (lowerFn word)).1,
      enUS := delTruthy d.enUS (removeKeys d word (lowerFn word)).2 }

/-- State-transformer reading of the single-word method gbToUs: the method
body only reads the indices (src/mod.ts lines 190-195 contain no store), so
the post-state is the input state. -/
def gbToUsRunOne (d : Dictionary) (word : Str) (matchCase : Bool) : Str × Dictionary :=
  (gbToUs d word matchCase, d)

/-- State-transformer reading of the array overload of gbToUs. -/
def gbToUsRun (d : Dictionary) (words : List Str) (matchCase : Bool) : List Str × Dictionary :=
  (gbToUsList d words matchCase, d)

/-- State-transformer reading of the single-word method usToGb. -/
def usToGbRunOne (d : Dictionary) (word : Str) (matchCase : Bool) : Str × Dictionary :=
  (usToGb d word matchCase, d)

/-- State-transformer reading of the array overload of usToGb. -/
def usToGbRun (d : Dictionary) (words : List Str) (matchCase : Bool) : List Str × Dictionary :=
  (usToGbList d words matchCase, d)

/-- Specification-side reading of the translation lookup (claim C1): exact key
first, then the lowercased key, else the word passes through; on a hit, the
stored counterpart is returned as is when matchCase is false, and mirrored to
the casing of the original unmodified input word when matchCase is true. -/
def translateGBSpec (d : Dictionary) (word : Str) (matchCase : Bool) : Str :=
  match recGet d.enGB word with
  | some target => if matchCase then _matchCase target word else target
  | none =>
    match recGet d.enGB (jsToLower word) with
    | some target => if matchCase then _matchCase target word else target
    | none => word

/-- Specification-side reading of the US to GB translation lookup (claim
C1). -/
def translateUSSpec (d : Dictionary) (word : Str) (matchCase : Bool) : Str :=
  match recGet d.enUS word with
  | some target => if matchCase then _matchCase target word else target
  | none =>
    match recGet d.enUS (jsToLower word) with
    | some target => if matchCase then _matchCase target word else target
    | none => word

/-- Specification-side per-character rule of the mixed pattern case (claim
C2): where candidate and pattern characters agree ignoring case, the candidate
character takes the case of the pattern character (uppercase when the pattern
character is an uppercase character, lowercase otherwise); where they
disagree, the candidate character is kept. -/
def specMixedAt (c p : Char) : Char :=
  if Char.toLower c = Char.toLower p then
    (if p.isUpper then Char.toUpper c else Char.toLower c)
  else c

/-- Deletion of a key from an index, skipped for the empty-string key (the
amended reading of the guarded deletions of remove). -/
def delNonempty (idx : Index) (k : Str) : Index :=
  if k = [] then idx else recDelete idx k

/-- Specification-side reading of remove as amended for claim C3: a no-op when
the locale-lowercased word is empty; otherwise the four-step resolution
cascade, where a match deletes the matched entry and the counterpart entry
recorded as its value in the other index, a deletion under the empty-string
key being skipped. -/
def removeAmended (lowerFn : Str → Str) (d : Dictionary) (word : Str) : Dictionary :=
  if lowerFn word = [] then d
  else
    match recGet d.enGB word with
    | some us => { enGB := delNonempty d.enGB word, enUS := delNonempty d.enUS us }
    | none =>
      match recGet d.enUS word with
      | some gb => { enGB := delNonempty d.enGB gb, enUS := delNonempty d.enUS word }
      | none =>
        match recGet d.enGB (lowerFn word) with
        | some us =>
            { enGB := delNonempty d.enGB (lowerFn word), enUS := delNonempty d.enUS us }
        | none =>
          match recGet d.enUS (lowerFn word) with
          | some gb =>
              { enGB := delNonempty d.enGB gb, enUS := delNonempty d.enUS (lowerFn word) }
          | none => d

/-- A concrete dictionary whose GB index holds the TitleCase key Gaol and no
lowercase entry, used to witness claim C6. -/
def dGaol : Dictionary := ⟨[(str "Gaol", str "Jail")], [(str "Jail", str "Gaol")]⟩

/-- A concrete dictionary holding the colour / color pair, used to witness
claim C7. -/
def dColour : Dictionary := ⟨[(str "colour", str "color")], [(str "color", str "colour")]⟩

/-- A concrete dictionary holding an entry under the empty-string key, as
produced by add with an empty gb word; used for claims C3 and C9. -/
def dEmptyKey : Dictionary := ⟨[([], str "x")], [(str "x", [])]⟩

/-- A pattern character is in the ASCII range A-Z exactly when it is an
uppercase character. -/
theorem upper_range_iff_isUpper (p : Char) : ('A' ≤ p ∧ p ≤ 'Z') ↔ p.isUpper = true := by
  simp only [Char.isUpper, Bool.and_eq_true, decide_eq_true_eq, ge_iff_le]
  exact Iff.rfl

/-- The mixed-casing loop computes the per-character rule up to the shorter
length and appends the surplus of the input verbatim. -/
theorem mixedLoop_eq_zipWith (input toMatch : Str) :
    mixedLoop input toMatch =
      List.zipWith specMixedAt input toMatch ++ input.drop toMatch.length := by
  induction input generalizing toMatch with
  | nil => cases toMatch <;> simp [mixedLoop]
  | cons c cs ih =>
    cases toMatch with
    | nil => simp [mixedLoop]
    | cons p ps =>
      simp only [mixedLoop, List.zipWith_cons_cons, List.length_cons, List.drop_succ_cons,
        List.cons_append, ih ps, specMixedAt, upper_range_iff_isUpper]

/-- Lookup after assignment: the assigned key reads back the new value and
every other key is unchanged. -/
theorem recGet_recSet (idx : Index) (k0 v k : Str) :
    recGet (recSet idx k0 v) k = if k = k0 then some v else recGet idx k := by
  induction idx with
  | nil =>
    by_cases h : k = k0
    · simp [recSet, recGet, h]
    · simp [recSet, recGet, h, Ne.symm h]
  | cons hd tl ih =>
    obtain ⟨k', v'⟩ := hd
    by_cases h1 : k' = k0
    · subst h1
      by_cases h2 : k = k'
      · simp [recSet, recGet, h2]
      · simp [recSet, recGet, h2, Ne.symm h2]
    · by_cases h2 : k' = k
      · subst h2
        simp [recSet, recGet, h1]
      · simp [recSet, recGet, h1, h2, ih]

/-- C1: for every dictionary state, word, direction and matchCase flag,
translate looks the word up as an exact key, else the lowercased word, in the
index of the direction, and passes the word through when both are absent; on a
hit it returns the stored counterpart unchanged when matchCase is false, and
the counterpart recased against the original unmodified input word when
matchCase is true. -/
theorem translate_lookup_spec (d : Dictionary) (word : Str) (mc : Bool) :
    gbToUs d word mc = translateGBSpec d word mc ∧
    usToGb d word mc = translateUSSpec d word mc := by
  constructor
  · cases hg : recGet d.enGB word with
    | some us => simp [gbToUs, translateGBToUS, translateGBSpec, jsNullishOr, hg]
    | none =>
      cases hl : recGet d.enGB (jsToLower word) <;>
        simp [gbToUs, translateGBToUS, translateGBSpec, jsNullishOr, hg, hl]
  · cases hg : recGet d.enUS word with
    | some gb => simp [usToGb, translateUSToGB, translateUSSpec, jsNullishOr, hg]
    | none =>
      cases hl : recGet d.enUS (jsToLower word) <;>
        simp [usToGb, translateUSToGB, translateUSSpec, jsNullishOr, hg, hl]

/-- C2: for every non-empty candidate and every non-empty mixed pattern (one
failing the Titlecase check and equal to neither its own uppercase nor its own
lowercase form), _matchCase applies the per-character transfer rule at every
index below the shorter length, and appends the surplus of the candidate
verbatim when the candidate is longer than the pattern. -/
theorem matchCase_mixed_pattern (c : Char) (cs : Str) (p : Char) (ps : Str)
    (hTitle : ¬ (p = Char.toUpper p ∧ ps = jsToLower ps))
    (hUpper : p :: ps ≠ jsToUpper (p :: ps))
    (hLower : p :: ps ≠ jsToLower (p :: ps)) :
    _matchCase (c :: cs) (p :: ps) =
      List.zipWith specMixedAt (c :: cs) (p :: ps) ++ (c :: cs).drop (p :: ps).length := by
  simp only [_matchCase, if_neg hTitle, if_neg hUpper, if_neg hLower]
  exact mixedLoop_eq_zipWith (c :: cs) (p :: ps)

/-- Witness for C2: the mixed pattern AeRopLaNe applied to the candidate
airplane. -/
theorem matchCase_mixed_pattern_witness :
    _matchCase ('a' :: str "irplane") ('A' :: str "eRopLaNe") =
      List.zipWith specMixedAt ('a' :: str "irplane") ('A' :: str "eRopLaNe") ++
        ('a' :: str "irplane").drop ('A' :: str "eRopLaNe").length ∧
    List.zipWith specMixedAt ('a' :: str "irplane") ('A' :: str "eRopLaNe") ++
        ('a' :: str "irplane").drop ('A' :: str "eRopLaNe").length = str "AiRplane" :=
  ⟨matchCase_mixed_pattern 'a' (str "irplane") 'A' (str "eRopLaNe")
      (by decide) (by decide) (by decide),
    by decide⟩

/-- C3, counterexample to the claim as stated: the dictionary holds the
empty string as an exact GB key, yet remove leaves both indices unchanged,
because the method returns early when the lowercased word is empty
(src/mod.ts line 137). -/
theorem remove_exact_match_counterexample :
    recGet dEmptyKey.enGB [] = some (str "x") ∧
    remove jsToLower dEmptyKey [] = dEmptyKey := by decide

/-- C3 as amended: remove is a no-op when the locale-lowercased word is
empty; otherwise it resolves exact GB key, else exact US key, else the
lowercased word against GB, else against US, else no-op; a match deletes the
matched entry and the counterpart entry recorded as its value in the other
index, except that a deletion under the empty-string key is skipped, and no
other entry of either index is deleted. -/
theorem remove_eq_amended (lowerFn : Str → Str) (d : Dictionary) (word : Str) :
    remove lowerFn d word = removeAmended lowerFn d word := by
  unfold remove removeAmended removeKeys delTruthy delNonempty
  by_cases h0 : lowerFn word = []
  · simp [h0]
  · have hlen : ¬ (lowerFn word).length = 0 := by
      simpa [List.length_eq_zero] using h0
    cases hg : recGet d.enGB word <;> cases hu : recGet d.enUS word <;>
      cases hgl : recGet d.enGB (lowerFn word) <;>
        cases hul : recGet d.enUS (lowerFn word) <;>
          simp [h0, hlen, hg, hu, hgl, hul]

/-- C4 (supporting theorem for the pure part of add): in the model, add
inserts gb into the GB index with value us and us into the US index with value
gb, exactly as given, overwriting an entry under the same exact key and
leaving every other key of either index unchanged. The error-freedom part of
the claim fails on the code: see the analysis of claim C4. -/
theorem add_updates_indices (d : Dictionary) (gb us k : Str) :
    recGet (add d gb us).enGB k = (if k = gb then some us else recGet d.enGB k) ∧
    recGet (add d gb us).enUS k = (if k = us then some gb else recGet d.enUS k) :=
  ⟨recGet_recSet d.enGB gb us k, recGet_recSet d.enUS us gb k⟩

/-- C5, counterexample to the claim as stated: the pattern consisting of the
single character 5 equals its own lowercase form, yet _matchCase applied to
the candidate hello yields Hello, not the lowercased candidate, because the
Titlecase check fires first (a caseless first character equals its own
uppercase form). -/
theorem matchCase_lower_counterexample :
    str "5" = jsToLower (str "5") ∧
    _matchCase (str "hello") (str "5") = str "Hello" ∧
    str "Hello" ≠ jsToLower (str "hello") := by decide

/-- C5 as amended: for every non-empty candidate and every non-empty pattern
that equals its own lowercase form and whose first character differs from its
own uppercase form (so the pattern is not classified as Titlecase),
_matchCase returns the lowercased candidate, the rules being checked in the
priority order Titlecase, all-uppercase, all-lowercase, mixed. -/
theorem matchCase_lower_pattern (input : Str) (p : Char) (ps : Str)
    (hin : input ≠ [])
    (hlow : p :: ps = jsToLower (p :: ps))
    (hp : p ≠ Char.toUpper p) :
    _matchCase input (p :: ps) = jsToLower input := by
  obtain ⟨c, cs, rfl⟩ := List.exists_cons_of_ne_nil hin
  have hTitle : ¬ (p = Char.toUpper p ∧ ps = jsToLower ps) := fun h => hp h.1
  have hUpper : ¬ (p :: ps = jsToUpper (p :: ps)) := by
    intro h
    rw [jsToUpper, List.map_cons] at h
    injection h with h1 h2
    exact hp h1
  simp only [_matchCase, if_neg hTitle, if_neg hUpper, if_pos hlow]

/-- Witness for C5 as amended: the all-lowercase pattern abc applied to the
candidate HeLLo. -/
theorem matchCase_lower_pattern_witness :
    _matchCase (str "HeLLo") ('a' :: str "bc") = jsToLower (str "HeLLo") :=
  matchCase_lower_pattern (str "HeLLo") 'a' (str "bc") (by decide) (by decide) (by decide)

/-- C6: exact keys take precedence over the lowercase fallback: in every
dictionary whose GB index holds the key Gaol with value Jail and no entry
under the key gaol, translating gaol passes it through unchanged while
translating Gaol yields Jail, for either matchCase flag. -/
theorem exact_key_precedence (d : Dictionary) (mc : Bool)
    (hGaol : recGet d.enGB (str "Gaol") = some (str "Jail"))
    (hgaol : recGet d.enGB (str "gaol") = none) :
    gbToUs d (str "gaol") mc = str "gaol" ∧ gbToUs d (str "Gaol") mc = str "Jail" := by
  constructor
  · have hlow : jsToLower (str "gaol") = str "gaol" := by decide
    simp [gbToUs, translateGBToUS, jsNullishOr, hgaol, hlow]
  · have hm : _matchCase (str "Jail") (str "Gaol") = str "Jail" := by decide
    cases mc <;> simp [gbToUs, translateGBToUS, jsNullishOr, hGaol, hm]

/-- Witness for C6 at a concrete dictionary. -/
theorem exact_key_precedence_witness :
    gbToUs dGaol (str "gaol") true = str "gaol" ∧
    gbToUs dGaol (str "Gaol") true = str "Jail" :=
  exact_key_precedence dGaol true (by decide) (by decide)

/-- C7: overriding one side leaves the stale reverse entry intact: if the GB
index maps g to u1 and the US index maps u1 to g, then after adding the pair
g, u2 with u2 distinct from u1, the GB translation of g yields u2, the US
translation of u1 still yields g, and every entry of either index other than
the GB entry for g and the US entry for u2 is unchanged. -/
theorem add_override_stale_reverse (d : Dictionary) (g u1 u2 : Str)
    (h1 : recGet d.enGB g = some u1) (h2 : recGet d.enUS u1 = some g)
    (hne : u2 ≠ u1) :
    gbToUs (add d g u2) g false = u2 ∧
    usToGb (add d g u2) u1 false = g ∧
    (∀ k, k ≠ g → recGet (add d g u2).enGB k = recGet d.enGB k) ∧
    (∀ k, k ≠ u2 → recGet (add d g u2).enUS k = recGet d.enUS k) := by
  refine ⟨?_, ?_, ?_, ?_⟩
  · simp [gbToUs, translateGBToUS, jsNullishOr, add, recGet_recSet]
  · have hu : recGet (recSet d.enUS u2 g) u1 = some g := by
      rw [recGet_recSet, if_neg (fun h => hne h.symm), h2]
    simp [usToGb, translateUSToGB, jsNullishOr, add, hu]
  · intro k hk
    simp [add, recGet_recSet, hk]
  · intro k hk
    simp [add, recGet_recSet, hk]

/-- Witness for C7: overriding colour to hue keeps the stale reverse entry
from color to colour queryable. -/
theorem add_override_stale_reverse_witness :
    gbToUs (add dColour (str "colour") (str "hue")) (str "colour") false = str "hue" ∧
    usToGb (add dColour (str "colour") (str "hue")) (str "color") false = str "colour" := by
  have h := add_override_stale_reverse dColour (str "colour") (str "color") (str "hue")
    (by decide) (by decide) (by decide)
  exact ⟨h.1, h.2.1⟩

/-- C8: a single-character pattern equal to its own uppercase form is
classified by the Titlecase check, so the candidate comes back with its first
character uppercased and the rest lowercased (not uppercased throughout). -/
theorem matchCase_single_upper (c : Char) (cs : Str) (p : Char)
    (hp : p = Char.toUpper p) :
    _matchCase (c :: cs) [p] = Char.toUpper c :: jsToLower cs := by
  have hcond : p = Char.toUpper p ∧ ([] : Str) = jsToLower [] := ⟨hp, rfl⟩
  simp only [_matchCase, if_pos hcond]

/-- Witness for C8: the single uppercase pattern A titlecases the candidate
hello to Hello rather than uppercasing it. -/
theorem matchCase_single_upper_witness :
    _matchCase ('h' :: str "ello") ['A'] = Char.toUpper 'h' :: jsToLower (str "ello") ∧
    Char.toUpper 'h' :: jsToLower (str "ello") = str "Hello" :=
  ⟨matchCase_single_upper 'h' (str "ello") 'A' (by decide), by decide⟩

/-- C9, counterexample to the claim as stated: with an entry stored under the
empty-string key, translating the empty string returns the stored counterpart
x, not the empty string: the lookup does not skip empty words. -/
theorem translate_empty_word_counterexample :
    gbToUs dEmptyKey [] true = str "x" ∧ (str "x" : Str) ≠ [] := by decide

/-- C9 as amended: translating the empty string returns the counterpart
stored under the empty-string key when such an entry exists, and the empty
string unchanged otherwise, in either direction and for either matchCase
flag. -/
theorem translate_empty_word (d : Dictionary) (mc : Bool) :
    gbToUs d [] mc = (recGet d.enGB []).getD [] ∧
    usToGb d [] mc = (recGet d.enUS []).getD [] := by
  constructor
  · cases hg : recGet d.enGB [] with
    | none => simp [gbToUs, translateGBToUS, jsNullishOr, jsToLower, hg]
    | some us =>
      have hm : _matchCase us [] = us := by cases us <;> rfl
      cases mc <;> simp [gbToUs, translateGBToUS, jsNullishOr, jsToLower, hg, hm]
  · cases hg : recGet d.enUS [] with
    | none => simp [usToGb, translateUSToGB, jsNullishOr, jsToLower, hg]
    | some gb =>
      have hm : _matchCase gb [] = gb := by cases gb <;> rfl
      cases mc <;> simp [usToGb, translateUSToGB, jsNullishOr, jsToLower, hg, hm]

/-- C10: translation is read-only: the methods gbToUs and usToGb, on a single
word or on an array of words and for either matchCase flag, leave the
dictionary state unchanged, so the sequence produced by entries afterwards is
the sequence produced before. -/
theorem translate_readonly (d : Dictionary) (w : Str) (ws : List Str) (mc : Bool) :
    entries (gbToUsRunOne d w mc).2 = entries d ∧
    entries (gbToUsRun d ws mc).2 = entries d ∧
    entries (usToGbRunOne d w mc).2 = entries d ∧
    entries (usToGbRun d ws mc).2 = entries d :=
  ⟨rfl, rfl, rfl, rfl⟩

end EnUkUsa
